import Mathlib

/-!
Verification development for the capability discovery and account lifecycle
engine of `aioxmpp/e2etest/provision.py`.

The development shallowly embeds the Python source: pure helpers become Lean
functions, the Python `dict` (which preserves insertion order) becomes an
association list with unique keys, coroutines that perform I/O through the
service-discovery or connection collaborators become functions parameterised
over those collaborators, and fallible operations return `Except`.
-/

set_option autoImplicit false

namespace Provision

/-! ### Glob matching (`fnmatch.fnmatch`)

The blockmap values are glob-style patterns; `_is_feature_blocked` tests them
with `fnmatch.fnmatch`, whose pattern language is `*` (any sequence), `?`
(any single character) and `[...]` / `[!...]` character classes, with an
unterminated `[` treated as a literal.  On POSIX `os.path.normcase` is the
identity, so `fnmatch.fnmatch` coincides with `fnmatch.fnmatchcase`.
-/

/-- Tokens of a compiled glob pattern, mirroring `fnmatch.translate`. -/
inductive GlobTok where
  | star : GlobTok
  | any : GlobTok
  | lit : Char → GlobTok
  | cls : Bool → List Char → GlobTok
deriving DecidableEq

/-- Scan for the `]` closing a character class; returns the class content and
the remainder of the pattern, or `none` if the class is unterminated. -/
def findClose : List Char → Option (List Char × List Char)
  | [] => none
  | c :: rest =>
    if c = ']' then some ([], rest)
    else
      match findClose rest with
      | none => none
      | some (content, r) => some (c :: content, r)

/-- Parse the part of a pattern following `[`: an optional leading `!`
(negation), then the class content where a `]` in first position is a
literal member, then the closing `]`.  Mirrors the index scan in
`fnmatch.translate`. -/
def parseClass (ps : List Char) : Option (Bool × List Char × List Char) :=
  match ps with
  | '!' :: ps1 =>
    (match ps1 with
     | ']' :: rest2 =>
       match findClose rest2 with
       | none => none
       | some (content, r) => some (true, ']' :: content, r)
     | _ =>
       match findClose ps1 with
       | none => none
       | some (content, r) => some (true, content, r))
  | _ =>
    (match ps with
     | ']' :: rest2 =>
       match findClose rest2 with
       | none => none
       | some (content, r) => some (false, ']' :: content, r)
     | _ =>
       match findClose ps with
       | none => none
       | some (content, r) => some (false, content, r))

/-- Membership of a character in a character-class body: `a-b` spans a range
unless the `-` is first or last, any other character is a literal member. -/
def inClass (c : Char) : List Char → Bool
  | a :: '-' :: b :: rest =>
    (decide (a.toNat ≤ c.toNat) && decide (c.toNat ≤ b.toNat)) || inClass c rest
  | a :: rest => (c == a) || inClass c rest
  | [] => false

/-- Compile a glob pattern to tokens (`fnmatch.translate`).  The fuel is the
pattern length; every step consumes at least one pattern character, so the
fuel never runs out on the initial call. -/
def translateFuel : Nat → List Char → List GlobTok
  | 0, _ => []
  | _ + 1, [] => []
  | fuel + 1, '*' :: ps => GlobTok.star :: translateFuel fuel ps
  | fuel + 1, '?' :: ps => GlobTok.any :: translateFuel fuel ps
  | fuel + 1, '[' :: ps =>
    (match parseClass ps with
     | none => GlobTok.lit '[' :: translateFuel fuel ps
     | some (neg, content, rest) => GlobTok.cls neg content :: translateFuel fuel rest)
  | fuel + 1, c :: ps => GlobTok.lit c :: translateFuel fuel ps

def translate (pat : List Char) : List GlobTok :=
  translateFuel pat.length pat

/-- Match compiled tokens against a string (anchored at both ends, as the
`\Z`-anchored regex produced by `fnmatch.translate` is).  Each recursive call
shrinks `tokens.length + s.length`, so the fuel used in `fnmatch` suffices. -/
def matchFuel : Nat → List GlobTok → List Char → Bool
  | 0, _, _ => false
  | _ + 1, [], s => s.isEmpty
  | fuel + 1, GlobTok.star :: ts, s =>
    matchFuel fuel ts s ||
      (match s with
       | [] => false
       | _ :: s2 => matchFuel fuel (GlobTok.star :: ts) s2)
  | fuel + 1, GlobTok.any :: ts, s =>
    (match s with
     | [] => false
     | _ :: s2 => matchFuel fuel ts s2)
  | fuel + 1, GlobTok.lit c :: ts, s =>
    (match s with
     | [] => false
     | d :: s2 => c == d && matchFuel fuel ts s2)
  | fuel + 1, GlobTok.cls neg content :: ts, s =>
    (match s with
     | [] => false
     | d :: s2 => (inClass d content != neg) && matchFuel fuel ts s2)

/-- Embedding of `fnmatch.fnmatch(name, pat)`. -/
def fnmatch (name : String) (pat : String) : Bool :=
  let toks := translate pat.toList
  matchFuel (name.toList.length + toks.length + 1) toks name.toList

/-! ### Data model -/

/-- Entity identifiers (`aioxmpp.JID`): opaque, value-compared. -/
abbrev JID := String

/-- The blockmap (`dict` from JID to list of glob patterns); `.get(peer, [])`
is total function application with default `[]`. -/
abbrev BlockMap := JID → List String

/-- Embedding of `_is_feature_blocked(peer, feature, blockmap)`. -/
def is_feature_blocked (peer : JID) (feature : String) (blockmap : BlockMap) : Bool :=
  (blockmap peer).any (fun item => fnmatch feature item)

/-- The feature index built by `discover_server_features`: a Python `dict`
mapping feature vars to provider lists, embedded as an insertion-ordered
association list. -/
abbrev FeatureMap := List (String × List JID)

/-- First-match association-list lookup (`dict` access / `in`). -/
def fm_lookup : FeatureMap → String → Option (List JID)
  | [], _ => none
  | p :: d, k => if p.1 = k then some p.2 else fm_lookup d k

/-- Lookup with default: `dict.get(k, [])`. -/
def fm_get (d : FeatureMap) (k : String) : List JID :=
  (fm_lookup d k).getD []

/-- Python `dict` assignment `d[k] = v`: replace in place, else append. -/
def dict_insert : FeatureMap → String → List JID → FeatureMap
  | [], k, v => [(k, v)]
  | p :: d, k, v => if p.1 = k then (p.1, v) :: d else p :: dict_insert d k v

/-- Python `d.setdefault(k, []).extend(v)`: extend the entry in place, else
append a new entry holding `v`. -/
def setdefault_extend : FeatureMap → String → List JID → FeatureMap
  | [], k, v => [(k, v)]
  | p :: d, k, v => if p.1 = k then (p.1, p.2 ++ v) :: d else p :: setdefault_extend d k v

/-! ### Discovery collaborator (`aioxmpp.DiscoClient`) -/

/-- Result of `disco.query_info`: features and (category, type) identities. -/
structure InfoResult where
  features : List String
  identities : List (String × String)
deriving DecidableEq

/-- One entry of a `disco.query_items` result. -/
structure DiscoItem where
  jid : Option JID
  node : Option String
deriving DecidableEq

/-- Result of `disco.query_items`. -/
structure ItemsResult where
  items : List DiscoItem
deriving DecidableEq

/-- The discovery transport collaborator; both queries may fail with a
transport error, carried as `Except`. -/
structure DiscoClient where
  query_info : JID → Except String InfoResult
  query_items : JID → Except String ItemsResult

/-! ### `discover_server_features` -/

/-- The dict comprehension
`{feature: [peer] for feature in server_info.features if not blocked}`. -/
def initial_features (peer : JID) (blockmap : BlockMap) (server_info : InfoResult) :
    FeatureMap :=
  server_info.features.foldl
    (fun d feature =>
      if is_feature_blocked peer feature blockmap then d else dict_insert d feature [peer])
    []

/-- The item filter of the recursion step: keep `item.jid` when it is present
and the item names no sub-node. -/
def items_jids (server_items : ItemsResult) : List JID :=
  server_items.items.filterMap
    (fun item =>
      match item.jid, item.node with
      | some j, none => some j
      | _, _ => none)

/-- Merging of one child result into the accumulated index:
`for feature, providers in features.items(): all_features.setdefault(feature, []).extend(providers)`. -/
def merge_child (d : FeatureMap) (features : FeatureMap) : FeatureMap :=
  features.foldl (fun d p => setdefault_extend d p.1 p.2) d

/-- `asyncio.gather` over `Except`-valued child queries: results in argument
order; the call fails if any child query fails. -/
def gatherM {α β : Type} (g : α → Except String β) : List α → Except String (List β)
  | [] => Except.ok []
  | a :: as => do
    let b ← g a
    let bs ← gatherM g as
    pure (b :: bs)

/-- The `recurse_into_items=False` path of `discover_server_features`: query
the peer's features and build the initial (blockmap-filtered) index.  This is
also the body executed by the recursive invocations, which the source makes
with `recurse_into_items=False`. -/
def discover_server_features_nr (disco : DiscoClient) (peer : JID) (blockmap : BlockMap) :
    Except String FeatureMap := do
  let server_info ← disco.query_info peer
  pure (initial_features peer blockmap server_info)

/-- Embedding of `discover_server_features(disco, peer, recurse_into_items,
blockmap)`.  The recursive invocation on each child is
`discover_server_features(disco, item.jid, recurse_into_items=False)`, which
leaves `blockmap` at its default `{}`; that path is exactly
`discover_server_features_nr disco j (fun _ => [])` (see
`discover_eq_nr_of_not_recurse`). -/
def discover_server_features (disco : DiscoClient) (peer : JID)
    (recurse_into_items : Bool) (blockmap : BlockMap) : Except String FeatureMap := do
  let server_info ← disco.query_info peer
  let all_features := initial_features peer blockmap server_info
  if recurse_into_items then
    let server_items ← disco.query_items peer
    let features_list ←
      gatherM (fun j => discover_server_features_nr disco j (fun _ => []))
        (items_jids server_items)
    pure (features_list.foldl merge_child all_features)
  else
    pure all_features

/-! ### Account lifecycle manager (`Provisioner`) -/

/-- Embedding of the `Quirk` enum. -/
inductive Quirk where
  | MUC_REWRITES_MESSAGE_ID : Quirk
  | NO_ADHOC_PING : Quirk
deriving DecidableEq

/-- A `PresenceManagedClient`: its bound bare JID plus the allocation number
(`id_`) used to name its logger; the number also distinguishes the object. -/
structure Client where
  jid : JID
  cid : Nat
deriving DecidableEq

/-- The connection context manager `cm = client.connected(presence)`.  A fresh
object per call; `uid` models Python object identity and is the value of the
provisioner counter at creation time, which is incremented exactly once per
`get_connected_client` call and hence fresh. -/
structure Handle where
  client : Client
  uid : Nat
deriving DecidableEq

/-- The `Provisioner` attribute state.  `quirks = none` models the `_quirks`
attribute not existing: `Provisioner.__init__` never assigns it; only a
subclass `configure` does. -/
structure ProvState where
  accounts_to_dispose : List Handle
  featuremap : FeatureMap
  account_info : Option InfoResult
  counter : Nat
  quirks : Option (List Quirk)
deriving DecidableEq

/-- State established by `Provisioner.__init__`. -/
def Provisioner_init : ProvState :=
  { accounts_to_dispose := [], featuremap := [], account_info := none,
    counter := 0, quirks := none }

/-- Embedding of `Provisioner.get_connected_client`.  `mkClient` is the
abstract `_make_client` collaborator, applied to the allocation number;
`handshake` is `cm.__aenter__()`, the connection handshake on the fresh
context manager, which may fail.  `services` summoning and the `prepare` hook
act on the client object only and touch no provisioner state, so they are not
modelled.  On handshake success the context manager is appended to
`_accounts_to_dispose` and the client returned; on failure the exception
propagates and only the already-performed counter increment remains. -/
def get_connected_client (mkClient : Nat → Client) (handshake : Handle → Except String Unit)
    (st : ProvState) : ProvState × Except String Client :=
  let id_ := st.counter
  let st1 := { st with counter := st.counter + 1 }
  let client := mkClient id_
  let cm : Handle := { client := client, uid := id_ }
  match handshake cm with
  | Except.ok _ =>
    ({ st1 with accounts_to_dispose := st1.accounts_to_dispose ++ [cm] }, Except.ok client)
  | Except.error e => (st1, Except.error e)

/-- Embedding of `Provisioner.teardown`.  For every pending context manager a
disposal task `cm.__aexit__(None, None, None)` is started, the pending list is
cleared, and the tasks are awaited with `return_exceptions=True`: each
disposal outcome (success or error) is returned as data paired with its
handle, and teardown itself always returns normally. -/
def teardown (dispose : Handle → Except String Unit) (st : ProvState) :
    ProvState × List (Handle × Except String Unit) :=
  let futures := st.accounts_to_dispose.map (fun cm => (cm, dispose cm))
  ({ st with accounts_to_dispose := [] }, futures)

/-- Embedding of `Provisioner.get_feature_providers`: `None` for an empty
request, otherwise the intersection of the provider sets of all requested
features. -/
def get_feature_providers (st : ProvState) (feature_nses : List String) :
    Option (Finset JID) :=
  match feature_nses with
  | [] => none
  | first_ns :: rest =>
    some (rest.foldl
      (fun providers feature_ns => providers ∩ (fm_get st.featuremap feature_ns).toFinset)
      (fm_get st.featuremap first_ns).toFinset)

/-- One `candidates.setdefault(provider, set()).add(feature_ns)` step on the
insertion-ordered candidates dict of `get_feature_subset_provider`. -/
def cands_add : List (JID × Finset String) → JID → String → List (JID × Finset String)
  | [], provider, ns => [(provider, {ns})]
  | p :: cands, provider, ns =>
    if p.1 = provider then (p.1, insert ns p.2) :: cands
    else p :: cands_add cands provider ns

/-- The candidates dict of `get_feature_subset_provider`: for every requested
feature in order, for every provider of that feature in list order, add the
feature to the provider's candidate set. -/
def gfsp_candidates (fm : FeatureMap) (feature_nses : List String) :
    List (JID × Finset String) :=
  feature_nses.foldl
    (fun cands feature_ns =>
      (fm_get fm feature_ns).foldl
        (fun cands provider => cands_add cands provider feature_ns)
        cands)
    []

/-- The sort key relation of `sorted(..., key=lambda x: len(x[1]))`. -/
def cardLe (a b : JID × Finset String) : Prop := a.2.card ≤ b.2.card

instance : DecidableRel cardLe := fun a b => Nat.decLe a.2.card b.2.card

instance : IsTotal (JID × Finset String) cardLe :=
  ⟨fun a b => Nat.le_total a.2.card b.2.card⟩

instance : IsTrans (JID × Finset String) cardLe :=
  ⟨fun _ _ _ h1 h2 => Nat.le_trans h1 h2⟩

/-- Embedding of `Provisioner.get_feature_subset_provider`: keep the
candidates whose feature set contains `required_subset`, sort them stably by
ascending set size (Python's `sorted` is stable, as is insertion sort), and
`pop()` the last; `none` models the `(None, None)` return on `IndexError`. -/
def get_feature_subset_provider (st : ProvState) (feature_nses : List String)
    (required_subset : Finset String) : Option (JID × Finset String) :=
  let candidates := gfsp_candidates st.featuremap feature_nses
  let survivors := candidates.filter (fun p => decide (p.2 ∩ required_subset = required_subset))
  (List.insertionSort cardLe survivors).getLast?

/-- Embedding of `Provisioner.has_quirk`: reading `self._quirks` raises
`AttributeError` when the attribute was never assigned (state `none`),
otherwise answers membership. -/
def has_quirk (st : ProvState) (q : Quirk) : Except String Bool :=
  match st.quirks with
  | none => Except.error "AttributeError"
  | some qs => Except.ok (decide (q ∈ qs))

/-- The `self._quirks = configure_quirks(section)` assignment performed by
`AnonymousProvisioner.configure` (its other assignments go to subclass-private
attributes that no claim reads). -/
def AnonymousProvisioner_configure (st : ProvState) (qs : List Quirk) : ProvState :=
  { st with quirks := some qs }

/-! ### Execution traces of the lifecycle

`Op` is one externally triggered lifecycle step: a `get_connected_client`
call whose handshake succeeds or fails, or a `teardown` call.  `TraceState`
instruments a run with the ghost history of every context manager created and
of every disposal attempt initiated, so that "disposed exactly once" is a
statement about lists. -/

inductive Op where
  | connect : Bool → Op
  | teardown : Op
deriving DecidableEq

structure TraceState where
  st : ProvState
  created : List Handle
  attempts : List Handle
deriving DecidableEq

/-- One lifecycle step.  On `connect ok` the handshake outcome is `ok`; the
context manager recorded in `created` is the one `get_connected_client`
builds internally (`client.connected(...)` tagged with the current counter).
On `teardown` every initiated disposal is appended to `attempts`. -/
def stepOp (mkClient : Nat → Client) : Op → TraceState → TraceState
  | Op.connect ok, ts =>
    let hs : Handle → Except String Unit :=
      fun _ => if ok then Except.ok () else Except.error "ConnectionError"
    let r := get_connected_client mkClient hs ts.st
    { st := r.1,
      created := ts.created ++ [{ client := mkClient ts.st.counter, uid := ts.st.counter }],
      attempts := ts.attempts }
  | Op.teardown, ts =>
    let r := teardown (fun _ => Except.ok ()) ts.st
    { st := r.1, created := ts.created, attempts := ts.attempts ++ r.2.map Prod.fst }

def runOps (mkClient : Nat → Client) (ops : List Op) (ts : TraceState) : TraceState :=
  ops.foldl (fun ts op => stepOp mkClient op ts) ts

def initTrace : TraceState :=
  { st := Provisioner_init, created := [], attempts := [] }

/-- The context manager created by the `get_connected_client` call that runs
after the prefix `pre` of a trace. -/
def handleAt (mkClient : Nat → Client) (pre : List Op) : Handle :=
  { client := mkClient (runOps mkClient pre initTrace).st.counter,
    uid := (runOps mkClient pre initTrace).st.counter }

/-- Invariant of reachable trace states: every handle stored for disposal or
recorded as disposed was created at a strictly earlier counter value. -/
def HandleBound (ts : TraceState) : Prop :=
  (∀ x ∈ ts.st.accounts_to_dispose, x.uid < ts.st.counter) ∧
  (∀ x ∈ ts.attempts, x.uid < ts.st.counter)

/-- Sequential `get_connected_client` calls: run `n` calls, collecting the
clients of the successful ones and stopping at the first failure. -/
def runN (mkClient : Nat → Client) (hs : Handle → Except String Unit) :
    Nat → ProvState → ProvState × List Client
  | 0, st => (st, [])
  | n + 1, st =>
    let r := get_connected_client mkClient hs st
    match r.2 with
    | Except.ok c =>
      let rest := runN mkClient hs n r.1
      (rest.1, c :: rest.2)
    | Except.error _ => (r.1, [])

/-- Modelled from the spec: the fresh-account contract of the `_make_client`
collaborator, whose enforcing code (the concrete account allocation performed
by the server and the binding machinery of `aioxmpp`) is outside this module.
The spec reads: `get_connected_client` "allocates a fresh, uniquely identified
account (uniqueness guaranteed by the provisioner — no two handles returned by
this operation during the Provisioner's lifetime may share an identity)".
Freshness is expressed as injectivity of the allocated bare JID in the
allocation number. -/
def FreshAccountSource (mkClient : Nat → Client) : Prop :=
  ∀ i j : Nat, (mkClient i).jid = (mkClient j).jid → i = j

/-! ### Proof-support definitions -/

/-- The providers a child result `m` contributes to feature `f` during the
merge step, in entry order. -/
def contribs (m : FeatureMap) (f : String) : List JID :=
  (m.filterMap (fun p => if p.1 = f then some p.2 else none)).flatten

/-- Lookup in the candidates dict of `get_feature_subset_provider`. -/
def cands_lookup : List (JID × Finset String) → JID → Option (Finset String)
  | [], _ => none
  | p :: cands, provider => if p.1 = provider then some p.2 else cands_lookup cands provider

/-- The subset of the requested features that provider `p` actually provides
(the semantic reading of a candidate entry). -/
def semSubset (fm : FeatureMap) (caps : List String) (p : JID) : Finset String :=
  (caps.filter (fun ns => decide (p ∈ fm_get fm ns))).toFinset

/-- Provider `p` provides at least one requested feature (the semantic
condition for appearing in the candidates dict). -/
def semProvides (fm : FeatureMap) (caps : List String) (p : JID) : Prop :=
  ∃ ns ∈ caps, p ∈ fm_get fm ns

instance (fm : FeatureMap) (caps : List String) (p : JID) :
    Decidable (semProvides fm caps p) := by
  unfold semProvides
  infer_instance

/-! ### Concrete fixtures used by counterexamples and witnesses -/

/-- A server whose only item is a MUC component; the component advertises a
`…#publish` feature. -/
def disco_C1 : DiscoClient :=
  { query_info := fun j =>
      if j = "server" then Except.ok { features := ["feat#read"], identities := [] }
      else if j = "muc.server" then Except.ok { features := ["muc#publish"], identities := [] }
      else Except.error "item-not-found",
    query_items := fun j =>
      if j = "server" then Except.ok { items := [{ jid := some "muc.server", node := none }] }
      else Except.ok { items := [] } }

/-- A blockmap registering a pattern for the child component. -/
def blockmap_C1 : BlockMap := fun j => if j = "muc.server" then ["*#publish"] else []

/-- A blockmap registering a pattern for the root server. -/
def blockmap_C1w : BlockMap := fun j => if j = "server" then ["*#publish"] else []

def mk_anon : Nat → Client := fun n => { jid := "anon", cid := n }

def disco_C5a : DiscoClient :=
  { query_info := fun _ => Except.error "info-failed",
    query_items := fun _ => Except.ok { items := [] } }

def disco_C5b : DiscoClient :=
  { query_info := fun _ => Except.ok { features := ["f"], identities := [] },
    query_items := fun _ => Except.error "items-failed" }

def disco_C5c : DiscoClient :=
  { query_info := fun j =>
      if j = "server" then Except.ok { features := ["f"], identities := [] }
      else Except.error "child-failed",
    query_items := fun _ =>
      Except.ok { items := [{ jid := some "muc.server", node := none }] } }

def featuremap_C6 : FeatureMap := [("a", ["P1", "P2"]), ("b", ["P2", "P3"]), ("c", ["P3"])]

def st_C6 : ProvState := { Provisioner_init with featuremap := featuremap_C6 }

def st_C7 : ProvState := { Provisioner_init with featuremap := [("x", ["j"])] }

/-- A server and a child component that both advertise feature `f`. -/
def disco_C8 : DiscoClient :=
  { query_info := fun j =>
      if j = "server" then Except.ok { features := ["f"], identities := [] }
      else if j = "muc.server" then Except.ok { features := ["f"], identities := [] }
      else Except.error "item-not-found",
    query_items := fun j =>
      if j = "server" then Except.ok { items := [{ jid := some "muc.server", node := none }] }
      else Except.ok { items := [] } }

def items_C8 : ItemsResult := { items := [{ jid := some "muc.server", node := none }] }

def mk_C9 : Nat → Client := fun n => { jid := String.mk (List.replicate n 'a'), cid := n }

def hs_ok : Handle → Except String Unit := fun _ => Except.ok ()

def hs_C4fail : Handle → Except String Unit := fun _ => Except.error "ConnectionError"

def st_C3 : ProvState :=
  { Provisioner_init with
    accounts_to_dispose := [{ client := { jid := "anon", cid := 0 }, uid := 0 }] }

def dispose_fail : Handle → Except String Unit := fun _ => Except.error "DisposeError"

/-! ## Lemmas about the feature map -/

theorem fm_lookup_dict_insert_self (d : FeatureMap) (k : String) (v : List JID) :
    fm_lookup (dict_insert d k v) k = some v := by
  induction d with
  | nil => simp [dict_insert, fm_lookup]
  | cons p d ih =>
    by_cases h : p.1 = k
    · simp [dict_insert, fm_lookup, h]
    · simp [dict_insert, fm_lookup, h, ih]

theorem fm_lookup_dict_insert_ne (d : FeatureMap) (k : String) (v : List JID) (f : String)
    (hne : f ≠ k) : fm_lookup (dict_insert d k v) f = fm_lookup d f := by
  have hkf : ¬(k = f) := fun h => hne h.symm
  induction d with
  | nil => simp [dict_insert, fm_lookup, hkf]
  | cons p d ih =>
    by_cases h : p.1 = k
    · simp [dict_insert, fm_lookup, if_pos h, h, hkf]
    · simp only [dict_insert, if_neg h, fm_lookup]
      by_cases h2 : p.1 = f
      · simp [h2]
      · simp [h2, ih]

theorem fm_lookup_sde_self (d : FeatureMap) (k : String) (v : List JID) :
    fm_lookup (setdefault_extend d k v) k = some (fm_get d k ++ v) := by
  induction d with
  | nil => simp [setdefault_extend, fm_lookup, fm_get]
  | cons p d ih =>
    by_cases h : p.1 = k
    · simp [setdefault_extend, fm_lookup, fm_get, h]
    · simp [setdefault_extend, fm_lookup, fm_get, h, ih]

theorem fm_lookup_sde_ne (d : FeatureMap) (k : String) (v : List JID) (f : String)
    (hne : f ≠ k) : fm_lookup (setdefault_extend d k v) f = fm_lookup d f := by
  have hkf : ¬(k = f) := fun h => hne h.symm
  induction d with
  | nil => simp [setdefault_extend, fm_lookup, hkf]
  | cons p d ih =>
    by_cases h : p.1 = k
    · simp [setdefault_extend, fm_lookup, if_pos h, h, hkf]
    · simp only [setdefault_extend, if_neg h, fm_lookup]
      by_cases h2 : p.1 = f
      · simp [h2]
      · simp [h2, ih]

theorem initial_features_foldl_lookup (peer : JID) (bm : BlockMap) (fs : List String)
    (d : FeatureMap) (f : String) :
    fm_lookup
      (fs.foldl
        (fun d feature =>
          if is_feature_blocked peer feature bm then d else dict_insert d feature [peer])
        d) f =
    if f ∈ fs ∧ is_feature_blocked peer f bm = false then some [peer] else fm_lookup d f := by
  induction fs generalizing d with
  | nil => simp
  | cons g fs ih =>
    simp only [List.foldl_cons]
    rw [ih]
    by_cases hmem : f ∈ fs ∧ is_feature_blocked peer f bm = false
    · simp [hmem, List.mem_cons, hmem.1, hmem.2]
    · rw [if_neg hmem]
      by_cases hfg : f = g
      · subst hfg
        cases hbl : is_feature_blocked peer f bm with
        | true => simp [hbl]
        | false => simp [hbl, fm_lookup_dict_insert_self]
      · cases hbl : is_feature_blocked peer g bm with
        | true =>
          rw [if_pos rfl,
            if_neg (fun hc : f ∈ g :: fs ∧ is_feature_blocked peer f bm = false =>
              hmem ⟨(List.mem_cons.mp hc.1).resolve_left hfg, hc.2⟩)]
        | false =>
          rw [if_neg (by simp), fm_lookup_dict_insert_ne _ _ _ _ hfg,
            if_neg (fun hc : f ∈ g :: fs ∧ is_feature_blocked peer f bm = false =>
              hmem ⟨(List.mem_cons.mp hc.1).resolve_left hfg, hc.2⟩)]

theorem initial_features_lookup (peer : JID) (bm : BlockMap) (info : InfoResult) (f : String) :
    fm_lookup (initial_features peer bm info) f =
    if f ∈ info.features ∧ is_feature_blocked peer f bm = false then some [peer] else none := by
  rw [initial_features, initial_features_foldl_lookup]
  simp [fm_lookup]

theorem mem_dict_insert (d : FeatureMap) (k : String) (v : List JID)
    (p : String × List JID) (hp : p ∈ dict_insert d k v) : p ∈ d ∨ p = (k, v) := by
  induction d with
  | nil => simp [dict_insert] at hp; simp [hp]
  | cons q d ih =>
    by_cases h : q.1 = k
    · rw [dict_insert, if_pos h] at hp
      rcases List.mem_cons.mp hp with hp | hp
      · right; rw [hp, h]
      · left; exact List.mem_cons_of_mem _ hp
    · rw [dict_insert, if_neg h] at hp
      rcases List.mem_cons.mp hp with hp | hp
      · left; exact hp ▸ List.mem_cons_self _ _
      · rcases ih hp with hp | hp
        · left; exact List.mem_cons_of_mem _ hp
        · right; exact hp

/-! ## Lemmas about the merge step -/

theorem fm_get_sde_mem (d : FeatureMap) (k : String) (v : List JID) (f : String) (x : JID)
    (hx : x ∈ fm_get (setdefault_extend d k v) f) :
    x ∈ fm_get d f ∨ (k = f ∧ x ∈ v) := by
  by_cases hkf : k = f
  · subst hkf
    rw [fm_get, fm_lookup_sde_self] at hx
    simp only [Option.getD_some] at hx
    rcases List.mem_append.mp hx with hx | hx
    · exact Or.inl hx
    · exact Or.inr ⟨rfl, hx⟩
  · rw [fm_get, fm_lookup_sde_ne _ _ _ _ (fun h => hkf h.symm)] at hx
    exact Or.inl hx

theorem merge_child_mem (base m : FeatureMap) (f : String) (x : JID)
    (hx : x ∈ fm_get (merge_child base m) f) :
    x ∈ fm_get base f ∨ ∃ p ∈ m, p.1 = f ∧ x ∈ p.2 := by
  rw [merge_child] at hx
  induction m generalizing base with
  | nil => exact Or.inl hx
  | cons p m ih =>
    simp only [List.foldl_cons] at hx
    rcases ih _ hx with hx | hx
    · rcases fm_get_sde_mem _ _ _ _ _ hx with hx | hx
      · exact Or.inl hx
      · exact Or.inr ⟨p, List.mem_cons_self _ _, hx.1, hx.2⟩
    · rcases hx with ⟨q, hq, hqf, hxq⟩
      exact Or.inr ⟨q, List.mem_cons_of_mem _ hq, hqf, hxq⟩

theorem foldl_merge_mem (fl : List FeatureMap) (base : FeatureMap) (f : String) (x : JID)
    (hx : x ∈ fm_get (fl.foldl merge_child base) f) :
    x ∈ fm_get base f ∨ ∃ m ∈ fl, ∃ p ∈ m, p.1 = f ∧ x ∈ p.2 := by
  induction fl generalizing base with
  | nil => exact Or.inl hx
  | cons m fl ih =>
    simp only [List.foldl_cons] at hx
    rcases ih _ hx with hx | hx
    · rcases merge_child_mem _ _ _ _ hx with hx | hx
      · exact Or.inl hx
      · exact Or.inr ⟨m, List.mem_cons_self _ _, hx⟩
    · rcases hx with ⟨m2, hm2, hp⟩
      exact Or.inr ⟨m2, List.mem_cons_of_mem _ hm2, hp⟩

theorem merge_child_lookup (base m : FeatureMap) (f : String) (l0 : List JID)
    (h : fm_lookup base f = some l0) :
    fm_lookup (merge_child base m) f = some (l0 ++ contribs m f) := by
  rw [merge_child, contribs]
  induction m generalizing base l0 with
  | nil => simpa using h
  | cons p m ih =>
    simp only [List.foldl_cons, List.filterMap_cons]
    by_cases hpf : p.1 = f
    · rw [if_pos hpf]
      have hstep : fm_lookup (setdefault_extend base p.1 p.2) f = some (l0 ++ p.2) := by
        rw [hpf, fm_lookup_sde_self, fm_get, h, Option.getD_some]
      rw [ih _ _ hstep]
      simp
    · rw [if_neg hpf]
      have hstep : fm_lookup (setdefault_extend base p.1 p.2) f = some l0 := by
        rw [fm_lookup_sde_ne _ _ _ _ (fun hh => hpf hh.symm), h]
      exact ih _ _ hstep

theorem foldl_merge_lookup (fl : List FeatureMap) (base : FeatureMap) (f : String)
    (l0 : List JID) (h : fm_lookup base f = some l0) :
    fm_lookup (fl.foldl merge_child base) f =
      some (l0 ++ (fl.map (fun m => contribs m f)).flatten) := by
  induction fl generalizing base l0 with
  | nil => simpa using h
  | cons m fl ih =>
    simp only [List.foldl_cons, List.map_cons, List.flatten_cons]
    rw [ih _ _ (merge_child_lookup _ _ _ _ h), List.append_assoc]

theorem mem_contribs (m : FeatureMap) (f : String) (x : JID) (hx : x ∈ contribs m f) :
    ∃ p ∈ m, p.1 = f ∧ x ∈ p.2 := by
  rw [contribs] at hx
  rcases List.mem_flatten.mp hx with ⟨l, hl, hxl⟩
  rcases List.mem_filterMap.mp hl with ⟨p, hp, hpl⟩
  by_cases hpf : p.1 = f
  · rw [if_pos hpf] at hpl
    cases hpl
    exact ⟨p, hp, hpf, hxl⟩
  · rw [if_neg hpf] at hpl
    cases hpl

/-! ## Lemmas about `gatherM` and `discover_server_features` -/

theorem gatherM_ok_forall2 {α β : Type} (g : α → Except String β) :
    ∀ (l : List α) (rs : List β), gatherM g l = Except.ok rs →
      List.Forall₂ (fun c r => g c = Except.ok r) l rs := by
  intro l
  induction l with
  | nil =>
    intro rs h
    rw [gatherM] at h
    cases h
    exact List.Forall₂.nil
  | cons a as ih =>
    intro rs h
    rw [gatherM] at h
    cases hga : g a with
    | error e => rw [hga] at h; simp [Bind.bind, Except.bind] at h
    | ok b =>
      rw [hga] at h
      cases hrest : gatherM g as with
      | error e => rw [hrest] at h; simp [Bind.bind, Except.bind] at h
      | ok bs =>
        rw [hrest] at h
        simp only [Bind.bind, Except.bind, pure, Except.pure] at h
        cases h
        exact List.Forall₂.cons hga (ih _ hrest)

theorem gatherM_error_of_mem {α β : Type} (g : α → Except String β) (l : List α) (c : α)
    (hc : c ∈ l) (e : String) (he : g c = Except.error e) :
    ∃ e2, gatherM g l = Except.error e2 := by
  induction l with
  | nil => cases hc
  | cons a as ih =>
    rcases List.mem_cons.mp hc with rfl | hmem
    · exact ⟨e, by rw [gatherM, he]; rfl⟩
    · cases hga : g a with
      | error e3 => exact ⟨e3, by rw [gatherM, hga]; rfl⟩
      | ok b =>
        rcases ih hmem with ⟨e2, h2⟩
        refine ⟨e2, ?_⟩
        rw [gatherM, hga]
        simp only [Bind.bind, Except.bind]
        rw [h2]

theorem discover_info_error (disco : DiscoClient) (peer : JID) (bm : BlockMap)
    (r : Bool) (e : String) (h : disco.query_info peer = Except.error e) :
    discover_server_features disco peer r bm = Except.error e := by
  rw [discover_server_features, h]
  rfl

theorem discover_nr_eq (disco : DiscoClient) (c : JID) (bm : BlockMap) (info : InfoResult)
    (h : disco.query_info c = Except.ok info) :
    discover_server_features_nr disco c bm = Except.ok (initial_features c bm info) := by
  rw [discover_server_features_nr, h]
  rfl

theorem discover_nr_error (disco : DiscoClient) (c : JID) (bm : BlockMap) (e : String)
    (h : disco.query_info c = Except.error e) :
    discover_server_features_nr disco c bm = Except.error e := by
  rw [discover_server_features_nr, h]
  rfl

theorem discover_false_eq (disco : DiscoClient) (peer : JID) (bm : BlockMap) :
    discover_server_features disco peer false bm = discover_server_features_nr disco peer bm := by
  rw [discover_server_features, discover_server_features_nr]
  cases disco.query_info peer <;> rfl

theorem discover_items_error (disco : DiscoClient) (peer : JID) (bm : BlockMap)
    (info : InfoResult) (e : String) (hinfo : disco.query_info peer = Except.ok info)
    (hitems : disco.query_items peer = Except.error e) :
    discover_server_features disco peer true bm = Except.error e := by
  rw [discover_server_features, hinfo]
  simp only [Bind.bind, Except.bind, if_pos rfl]
  rw [hitems]
  rfl

theorem discover_true_eq (disco : DiscoClient) (peer : JID) (bm : BlockMap)
    (info : InfoResult) (items : ItemsResult) (rs : List FeatureMap)
    (hinfo : disco.query_info peer = Except.ok info)
    (hitems : disco.query_items peer = Except.ok items)
    (hrs : gatherM (fun j => discover_server_features_nr disco j (fun _ => []))
      (items_jids items) = Except.ok rs) :
    discover_server_features disco peer true bm =
      Except.ok (rs.foldl merge_child (initial_features peer bm info)) := by
  rw [discover_server_features, hinfo]
  simp only [Bind.bind, Except.bind, if_pos rfl]
  rw [hitems]
  simp only [Bind.bind, Except.bind]
  rw [hrs]
  rfl

theorem discover_true_gather_error (disco : DiscoClient) (peer : JID) (bm : BlockMap)
    (info : InfoResult) (items : ItemsResult) (e : String)
    (hinfo : disco.query_info peer = Except.ok info)
    (hitems : disco.query_items peer = Except.ok items)
    (hg : gatherM (fun j => discover_server_features_nr disco j (fun _ => []))
      (items_jids items) = Except.error e) :
    discover_server_features disco peer true bm = Except.error e := by
  rw [discover_server_features, hinfo]
  simp only [Bind.bind, Except.bind, if_pos rfl]
  rw [hitems]
  simp only [Bind.bind, Except.bind]
  rw [hg]
  simp

theorem forall2_mem_right {α β : Type} {R : α → β → Prop} :
    ∀ {l : List α} {rs : List β}, List.Forall₂ R l rs → ∀ {m : β}, m ∈ rs →
      ∃ c ∈ l, R c m := by
  intro l rs h
  induction h with
  | nil => intro m hm; cases hm
  | cons hr hrest ih =>
    intro m hm
    rcases List.mem_cons.mp hm with rfl | hm
    · exact ⟨_, List.mem_cons_self _ _, hr⟩
    · rcases ih hm with ⟨c, hc, hcr⟩
      exact ⟨c, List.mem_cons_of_mem _ hc, hcr⟩

theorem discover_true_child_error (disco : DiscoClient) (peer : JID) (bm : BlockMap)
    (info : InfoResult) (items : ItemsResult)
    (hinfo : disco.query_info peer = Except.ok info)
    (hitems : disco.query_items peer = Except.ok items)
    (c : JID) (hc : c ∈ items_jids items) (e : String)
    (he : disco.query_info c = Except.error e) :
    ∃ e2, discover_server_features disco peer true bm = Except.error e2 := by
  rcases gatherM_error_of_mem (fun j => discover_server_features_nr disco j (fun _ => []))
      (items_jids items) c hc e (discover_nr_error disco c _ e he) with ⟨e2, hg⟩
  refine ⟨e2, ?_⟩
  rw [discover_server_features, hinfo]
  simp only [Bind.bind, Except.bind, if_pos rfl]
  rw [hitems]
  simp only [Bind.bind, Except.bind]
  rw [hg]
  simp

theorem initial_features_values (peer : JID) (bm : BlockMap) (info : InfoResult)
    (p : String × List JID) (hp : p ∈ initial_features peer bm info) : p.2 = [peer] := by
  rw [initial_features] at hp
  suffices h : ∀ (fs : List String) (d : FeatureMap), (∀ q ∈ d, q.2 = [peer]) →
      ∀ q ∈ fs.foldl
        (fun d feature =>
          if is_feature_blocked peer feature bm then d else dict_insert d feature [peer])
        d, q.2 = [peer] by
    exact h info.features [] (by simp) p hp
  intro fs
  induction fs with
  | nil => intro d hd q hq; exact hd q hq
  | cons g fs ih =>
    intro d hd q hq
    simp only [List.foldl_cons] at hq
    by_cases hbl : is_feature_blocked peer g bm
    · rw [if_pos hbl] at hq
      exact ih d hd q hq
    · rw [if_neg hbl] at hq
      refine ih _ ?_ q hq
      intro r hr
      rcases mem_dict_insert _ _ _ _ hr with hr | hr
      · exact hd r hr
      · rw [hr]

/-! ## Claim C5 -/

/-- C5: every failure mode of `discover_server_features` aborts the whole
call with an error and no index: a failing capability query against the
peer, a failing item-listing query when recursion is enabled, and a failing
recursive query into any specific child. -/
theorem C5_failure_propagation (disco : DiscoClient) (peer : JID) (bm : BlockMap) :
    (∀ e, disco.query_info peer = Except.error e →
      ∀ r : Bool, discover_server_features disco peer r bm = Except.error e) ∧
    (∀ info e, disco.query_info peer = Except.ok info →
      disco.query_items peer = Except.error e →
      discover_server_features disco peer true bm = Except.error e) ∧
    (∀ info items c e, disco.query_info peer = Except.ok info →
      disco.query_items peer = Except.ok items →
      c ∈ items_jids items → disco.query_info c = Except.error e →
      ∃ e2, discover_server_features disco peer true bm = Except.error e2) :=
  ⟨fun e h r => discover_info_error disco peer bm r e h,
   fun info e hi hb => discover_items_error disco peer bm info e hi hb,
   fun info items c e hi hit hc he =>
     discover_true_child_error disco peer bm info items hi hit c hc e he⟩

theorem C5_witness :
    discover_server_features disco_C5a "server" true (fun _ => []) =
      Except.error "info-failed" ∧
    discover_server_features disco_C5b "server" true (fun _ => []) =
      Except.error "items-failed" ∧
    ∃ e2, discover_server_features disco_C5c "server" true (fun _ => []) =
      Except.error e2 :=
  ⟨(C5_failure_propagation disco_C5a "server" (fun _ => [])).1 "info-failed" rfl true,
   (C5_failure_propagation disco_C5b "server" (fun _ => [])).2.1
     { features := ["f"], identities := [] } "items-failed" rfl rfl,
   (C5_failure_propagation disco_C5c "server" (fun _ => [])).2.2
     { features := ["f"], identities := [] }
     { items := [{ jid := some "muc.server", node := none }] }
     "muc.server" "child-failed" rfl rfl (by decide) rfl⟩

/-! ## Claim C1 -/

/-- C1 (corrected): the blockmap filter is applied only to the peer the call
is made on, never to the children of the one-level recursion (the recursive
invocations pass no blockmap, so they run with the default empty one).  What
does hold: whenever `discover_server_features` succeeds and the peer does not
list itself among its own items, no capability blocked for the peer is
attributed to the peer in the resulting index. -/
theorem C1_amended_root_only_blocking (disco : DiscoClient) (peer : JID) (bm : BlockMap)
    (r : Bool) (idx : FeatureMap)
    (hok : discover_server_features disco peer r bm = Except.ok idx)
    (hself : ∀ items, disco.query_items peer = Except.ok items → peer ∉ items_jids items)
    (f : String) (hblocked : is_feature_blocked peer f bm = true) :
    peer ∉ fm_get idx f := by
  cases r with
  | false =>
    rw [discover_false_eq] at hok
    cases hinfo : disco.query_info peer with
    | error e => rw [discover_nr_error _ _ _ _ hinfo] at hok; cases hok
    | ok info =>
      rw [discover_nr_eq _ _ _ _ hinfo] at hok
      cases hok
      intro hmem
      rw [fm_get, initial_features_lookup] at hmem
      by_cases hc : f ∈ info.features ∧ is_feature_blocked peer f bm = false
      · exact absurd hc.2 (by simp [hblocked])
      · rw [if_neg hc] at hmem
        simp at hmem
  | true =>
    cases hinfo : disco.query_info peer with
    | error e => rw [discover_info_error _ _ _ _ _ hinfo] at hok; cases hok
    | ok info =>
      cases hitems : disco.query_items peer with
      | error e => rw [discover_items_error _ _ _ _ _ hinfo hitems] at hok; cases hok
      | ok items =>
        cases hrs : gatherM (fun j => discover_server_features_nr disco j (fun _ => []))
            (items_jids items) with
        | error e =>
          rw [discover_true_gather_error _ _ _ _ _ _ hinfo hitems hrs] at hok; cases hok
        | ok rs =>
          rw [discover_true_eq _ _ _ _ _ _ hinfo hitems hrs] at hok
          cases hok
          intro hmem
          rcases foldl_merge_mem _ _ _ _ hmem with hmem | hmem
          · rw [fm_get, initial_features_lookup] at hmem
            by_cases hc : f ∈ info.features ∧ is_feature_blocked peer f bm = false
            · exact absurd hc.2 (by simp [hblocked])
            · rw [if_neg hc] at hmem
              simp at hmem
          · rcases hmem with ⟨m, hm, p, hp, hpf, hppeer⟩
            have hall := gatherM_ok_forall2 _ _ _ hrs
            rcases forall2_mem_right hall hm with ⟨c, hcmem, hcok⟩
            cases hic : disco.query_info c with
            | error e => rw [discover_nr_error _ _ _ _ hic] at hcok; cases hcok
            | ok infc =>
              rw [discover_nr_eq _ _ _ _ hic] at hcok
              cases hcok
              have hval := initial_features_values c _ infc p hp
              rw [hval] at hppeer
              rcases List.mem_singleton.mp hppeer with rfl
              exact hself items hitems hcmem

/-- C1 counterexample: the blockmap registers the glob `*#publish` for the
child component `muc.server`, the child reports the matching capability
`muc#publish`, and yet the discovered index attributes `muc#publish` to
`muc.server` — the block check is not applied to children. -/
theorem C1_counterexample :
    is_feature_blocked "muc.server" "muc#publish" blockmap_C1 = true ∧
    discover_server_features disco_C1 "server" true blockmap_C1 =
      Except.ok [("feat#read", ["server"]), ("muc#publish", ["muc.server"])] ∧
    "muc.server" ∈
      fm_get [("feat#read", ["server"]), ("muc#publish", ["muc.server"])] "muc#publish" :=
  ⟨rfl, rfl, by decide⟩

theorem C1_witness :
    ("server" : JID) ∉
      fm_get [("feat#read", ["server"]), ("muc#publish", ["muc.server"])] "muc#publish" := by
  refine C1_amended_root_only_blocking disco_C1 "server" blockmap_C1w true
    [("feat#read", ["server"]), ("muc#publish", ["muc.server"])] rfl ?_ "muc#publish" rfl
  intro items hit
  have h2 : Except.ok ({ items := [{ jid := some "muc.server", node := none }] } : ItemsResult)
      = Except.ok items := hit
  cases h2
  decide

/-! ## Claim C8 -/

/-- C8: when a recursive discovery succeeds and the root reports an unblocked
capability `f`, the merged provider list for `f` starts with the root,
followed only by entities drawn from the root's item listing; root-derived
entries are never overridden or displaced by child-derived ones. -/
theorem C8_merge_precedence (disco : DiscoClient) (peer : JID) (bm : BlockMap)
    (info : InfoResult) (items : ItemsResult) (idx : FeatureMap) (f : String)
    (hinfo : disco.query_info peer = Except.ok info)
    (hitems : disco.query_items peer = Except.ok items)
    (hf : f ∈ info.features)
    (hnb : is_feature_blocked peer f bm = false)
    (hok : discover_server_features disco peer true bm = Except.ok idx) :
    ∃ rest, fm_lookup idx f = some (peer :: rest) ∧ ∀ c ∈ rest, c ∈ items_jids items := by
  cases hrs : gatherM (fun j => discover_server_features_nr disco j (fun _ => []))
      (items_jids items) with
  | error e =>
    rw [discover_true_gather_error _ _ _ _ _ _ hinfo hitems hrs] at hok; cases hok
  | ok rs =>
    rw [discover_true_eq _ _ _ _ _ _ hinfo hitems hrs] at hok
    cases hok
    have hbase : fm_lookup (initial_features peer bm info) f = some [peer] := by
      rw [initial_features_lookup, if_pos ⟨hf, hnb⟩]
    have hfold := foldl_merge_lookup rs _ f [peer] hbase
    refine ⟨(rs.map (fun m => contribs m f)).flatten, by simpa using hfold, ?_⟩
    intro c hc
    rcases List.mem_flatten.mp hc with ⟨l, hl, hcl⟩
    rcases List.mem_map.mp hl with ⟨m, hm, rfl⟩
    rcases mem_contribs m f c hcl with ⟨p, hp, hpf, hcp⟩
    have hall := gatherM_ok_forall2 _ _ _ hrs
    rcases forall2_mem_right hall hm with ⟨ch, hch, hchok⟩
    cases hic : disco.query_info ch with
    | error e => rw [discover_nr_error _ _ _ _ hic] at hchok; cases hchok
    | ok infc =>
      rw [discover_nr_eq _ _ _ _ hic] at hchok
      cases hchok
      have hval := initial_features_values ch _ infc p hp
      rw [hval] at hcp
      rcases List.mem_singleton.mp hcp with rfl
      exact hch

theorem C8_witness :
    ∃ rest, fm_lookup [("f", ["server", "muc.server"])] "f" = some ("server" :: rest) ∧
      ∀ c ∈ rest, c ∈ items_jids items_C8 :=
  C8_merge_precedence disco_C8 "server" (fun _ => [])
    { features := ["f"], identities := [] } items_C8
    [("f", ["server", "muc.server"])] "f" rfl rfl (by decide) rfl rfl

/-! ## Claim C7 -/

theorem foldl_inter_mem (T : String → Finset JID) (rest : List String) (A : Finset JID)
    (x : JID) :
    x ∈ rest.foldl (fun acc ns => acc ∩ T ns) A ↔ x ∈ A ∧ ∀ ns ∈ rest, x ∈ T ns := by
  induction rest generalizing A with
  | nil => simp
  | cons g rest ih =>
    simp only [List.foldl_cons]
    rw [ih]
    simp only [Finset.mem_inter, List.forall_mem_cons]
    tauto

theorem gfp_char (st : ProvState) (first : String) (rest : List String) (x : JID) :
    x ∈ rest.foldl
        (fun providers feature_ns => providers ∩ (fm_get st.featuremap feature_ns).toFinset)
        (fm_get st.featuremap first).toFinset ↔
      ∀ ns ∈ first :: rest, x ∈ fm_get st.featuremap ns := by
  rw [foldl_inter_mem]
  simp [List.forall_mem_cons, List.mem_toFinset]

/-- C7: `get_feature_providers` returns the `None` sentinel on an empty
request; on a non-empty request it returns the set of entities present in the
provider list of every requested feature (the intersection across the
requested features), independently of the order of the requested features —
in particular the empty set, distinct from the sentinel, when no entity
provides them all. -/
theorem C7_providers (st : ProvState) (l : List String) :
    (get_feature_providers st [] = none) ∧
    (l ≠ [] → ∃ s, get_feature_providers st l = some s ∧
      (∀ x, x ∈ s ↔ ∀ ns ∈ l, x ∈ fm_get st.featuremap ns) ∧
      ∀ l2, l.Perm l2 → get_feature_providers st l2 = get_feature_providers st l) := by
  refine ⟨rfl, ?_⟩
  intro hne
  match l, hne with
  | first :: rest, _ =>
    refine ⟨_, rfl, fun x => gfp_char st first rest x, ?_⟩
    intro l2 hperm
    cases l2 with
    | nil =>
      have hlen := hperm.length_eq
      simp at hlen
    | cons f2 r2 =>
      show get_feature_providers st (f2 :: r2) = get_feature_providers st (first :: rest)
      simp only [get_feature_providers]
      congr 1
      ext x
      rw [gfp_char, gfp_char]
      constructor
      · intro h ns hns
        exact h ns (hperm.mem_iff.mp hns)
      · intro h ns hns
        exact h ns (hperm.mem_iff.mpr hns)

theorem C7_witness :
    get_feature_providers st_C7 [] = none ∧
    get_feature_providers st_C7 ["x", "y"] = some ∅ ∧
    get_feature_providers st_C7 ["y", "x"] = get_feature_providers st_C7 ["x", "y"] := by
  obtain ⟨h1, h2⟩ := C7_providers st_C7 ["x", "y"]
  obtain ⟨s, hs, hchar, hperm⟩ := h2 (by simp)
  refine ⟨h1, ?_, hperm ["y", "x"] (by decide)⟩
  have hsempty : s = ∅ := by
    apply Finset.eq_empty_iff_forall_not_mem.mpr
    intro x hx
    have hy := (hchar x).mp hx "y" (by simp)
    simp [st_C7, Provisioner_init, fm_get, fm_lookup] at hy
  rw [hs, hsempty]

/-! ## Claim C3 -/

/-- C3: after `teardown` the pending-disposal sequence is empty whatever the
individual disposal outcomes are; each pending handle's disposal outcome
(including failures) is captured as data rather than re-raised, with teardown
itself returning normally; and a `teardown` on an empty sequence is a no-op
that initiates no disposal. -/
theorem C3_teardown (dispose : Handle → Except String Unit) (st : ProvState) :
    (teardown dispose st).1.accounts_to_dispose = [] ∧
    (teardown dispose st).2 = st.accounts_to_dispose.map (fun cm => (cm, dispose cm)) ∧
    (st.accounts_to_dispose = [] → teardown dispose st = (st, [])) := by
  refine ⟨rfl, rfl, ?_⟩
  intro h
  cases st with
  | mk a fm ai c q =>
    simp only at h
    subst h
    rfl

theorem C3_witness :
    (teardown dispose_fail st_C3).1.accounts_to_dispose = [] ∧
    teardown dispose_fail Provisioner_init = (Provisioner_init, []) :=
  ⟨(C3_teardown dispose_fail st_C3).1,
   (C3_teardown dispose_fail Provisioner_init).2.2 rfl⟩

theorem gcc_ok_eq (mkClient : Nat → Client) (hs : Handle → Except String Unit)
    (st : ProvState)
    (h : hs { client := mkClient st.counter, uid := st.counter } = Except.ok ()) :
    get_connected_client mkClient hs st =
      ({ st with
          counter := st.counter + 1,
          accounts_to_dispose := st.accounts_to_dispose ++
            [{ client := mkClient st.counter, uid := st.counter }] },
       Except.ok (mkClient st.counter)) := by
  simp only [get_connected_client, h]

theorem gcc_err_eq (mkClient : Nat → Client) (hs : Handle → Except String Unit)
    (st : ProvState) (e : String)
    (h : hs { client := mkClient st.counter, uid := st.counter } = Except.error e) :
    get_connected_client mkClient hs st =
      ({ st with counter := st.counter + 1 }, Except.error e) := by
  simp only [get_connected_client, h]

/-! ## Claim C4 -/

/-- C4: when the connection handshake on the freshly built context manager
succeeds, `get_connected_client` appends exactly that handle to the
pending-disposal sequence and returns the client; when the handshake fails,
the error propagates to the caller and the pending-disposal sequence is left
unchanged (only the counter increment persists). -/
theorem C4_connect (mkClient : Nat → Client) (hs : Handle → Except String Unit)
    (st : ProvState) :
    (hs { client := mkClient st.counter, uid := st.counter } = Except.ok () →
      get_connected_client mkClient hs st =
        ({ st with
            counter := st.counter + 1,
            accounts_to_dispose := st.accounts_to_dispose ++
              [{ client := mkClient st.counter, uid := st.counter }] },
         Except.ok (mkClient st.counter))) ∧
    (∀ e, hs { client := mkClient st.counter, uid := st.counter } = Except.error e →
      get_connected_client mkClient hs st =
        ({ st with counter := st.counter + 1 }, Except.error e)) :=
  ⟨fun h => gcc_ok_eq mkClient hs st h, fun e h => gcc_err_eq mkClient hs st e h⟩

theorem C4_witness :
    get_connected_client mk_anon hs_ok Provisioner_init =
      ({ Provisioner_init with
          counter := 1,
          accounts_to_dispose := [{ client := mk_anon 0, uid := 0 }] },
       Except.ok (mk_anon 0)) ∧
    get_connected_client mk_anon hs_C4fail Provisioner_init =
      ({ Provisioner_init with counter := 1 }, Except.error "ConnectionError") :=
  ⟨(C4_connect mk_anon hs_ok Provisioner_init).1 rfl,
   (C4_connect mk_anon hs_C4fail Provisioner_init).2 "ConnectionError" rfl⟩

/-! ## Claim C10 -/

/-- C10: before any `configure` has run, `has_quirk` does not produce a
boolean but fails with an `AttributeError`, because only a subclass
`configure` creates the quirk set; after a successful `configure`,
`has_quirk q` answers exactly whether `q` belongs to the configured set. -/
theorem C10_quirks (q : Quirk) (st : ProvState) (qs : List Quirk) :
    has_quirk Provisioner_init q = Except.error "AttributeError" ∧
    (has_quirk (AnonymousProvisioner_configure st qs) q = Except.ok true ↔ q ∈ qs) ∧
    (has_quirk (AnonymousProvisioner_configure st qs) q = Except.ok false ↔ q ∉ qs) := by
  refine ⟨rfl, ?_, ?_⟩
  · simp [has_quirk, AnonymousProvisioner_configure]
  · simp [has_quirk, AnonymousProvisioner_configure]

theorem C10_witness :
    has_quirk Provisioner_init Quirk.NO_ADHOC_PING = Except.error "AttributeError" ∧
    has_quirk (AnonymousProvisioner_configure Provisioner_init [Quirk.NO_ADHOC_PING])
      Quirk.NO_ADHOC_PING = Except.ok true :=
  ⟨(C10_quirks Quirk.NO_ADHOC_PING Provisioner_init [Quirk.NO_ADHOC_PING]).1,
   (C10_quirks Quirk.NO_ADHOC_PING Provisioner_init [Quirk.NO_ADHOC_PING]).2.1.mpr
     (List.mem_cons_self _ _)⟩

/-! ## Claim C6 -/

theorem cands_lookup_add (cands : List (JID × Finset String)) (q : JID) (ns : String)
    (p : JID) :
    cands_lookup (cands_add cands q ns) p =
      if p = q then some (insert ns ((cands_lookup cands q).getD ∅))
      else cands_lookup cands p := by
  induction cands with
  | nil =>
    by_cases hpq : p = q
    · simp [cands_add, cands_lookup, hpq]
    · simp [cands_add, cands_lookup, hpq, Ne.symm hpq]
  | cons r cands ih =>
    rcases r with ⟨a, b⟩
    by_cases haq : a = q <;> by_cases hpq : p = q <;> by_cases hap : a = p <;>
      simp_all [cands_add, cands_lookup]

theorem cands_lookup_fold_providers (provs : List JID) (ns : String)
    (cands : List (JID × Finset String)) (p : JID) :
    cands_lookup (provs.foldl (fun c q => cands_add c q ns) cands) p =
      if p ∈ provs then some (insert ns ((cands_lookup cands p).getD ∅))
      else cands_lookup cands p := by
  induction provs generalizing cands with
  | nil => simp
  | cons q provs ih =>
    simp only [List.foldl_cons]
    rw [ih]
    by_cases hpq : p = q
    · subst hpq
      by_cases hpp : p ∈ provs
      · rw [if_pos hpp, if_pos (List.mem_cons_self _ _), cands_lookup_add, if_pos rfl]
        simp
      · rw [if_neg hpp, if_pos (List.mem_cons_self _ _), cands_lookup_add, if_pos rfl]
    · rw [cands_lookup_add, if_neg hpq]
      by_cases hpp : p ∈ provs
      · rw [if_pos hpp, if_pos (List.mem_cons_of_mem _ hpp)]
      · rw [if_neg hpp,
          if_neg (fun hc => hpp ((List.mem_cons.mp hc).resolve_left hpq))]

theorem semProvides_cons (fm : FeatureMap) (ns : String) (caps : List String) (p : JID) :
    semProvides fm (ns :: caps) p ↔ p ∈ fm_get fm ns ∨ semProvides fm caps p := by
  simp [semProvides]

theorem semSubset_cons (fm : FeatureMap) (ns : String) (caps : List String) (p : JID) :
    semSubset fm (ns :: caps) p =
      if p ∈ fm_get fm ns then insert ns (semSubset fm caps p) else semSubset fm caps p := by
  by_cases h : p ∈ fm_get fm ns <;> simp [semSubset, List.filter_cons, h]

theorem cands_lookup_gfsp_fold (fm : FeatureMap) (caps : List String)
    (cands : List (JID × Finset String)) (p : JID) :
    cands_lookup
      (caps.foldl
        (fun cands feature_ns =>
          (fm_get fm feature_ns).foldl
            (fun cands provider => cands_add cands provider feature_ns) cands)
        cands) p =
      if semProvides fm caps p ∨ (cands_lookup cands p).isSome = true
      then some ((cands_lookup cands p).getD ∅ ∪ semSubset fm caps p)
      else none := by
  induction caps generalizing cands with
  | nil =>
    simp only [List.foldl_nil]
    cases h : cands_lookup cands p with
    | none => simp [semProvides, h]
    | some s => simp [semProvides, semSubset, h]
  | cons ns caps ih =>
    simp only [List.foldl_cons]
    rw [ih, cands_lookup_fold_providers]
    by_cases hmem : p ∈ fm_get fm ns
    · rw [if_pos hmem]
      have hsem : semProvides fm (ns :: caps) p := ⟨ns, List.mem_cons_self _ _, hmem⟩
      rw [if_pos (Or.inr (by simp)), if_pos (Or.inl hsem), semSubset_cons, if_pos hmem]
      simp [Finset.insert_union, Finset.union_insert]
    · rw [if_neg hmem, semSubset_cons, if_neg hmem]
      have hiff : semProvides fm (ns :: caps) p ↔ semProvides fm caps p := by
        rw [semProvides_cons]
        simp [hmem]
      by_cases hcond : semProvides fm caps p ∨ (cands_lookup cands p).isSome = true
      · rw [if_pos hcond, if_pos (by rw [hiff]; exact hcond)]
      · rw [if_neg hcond, if_neg (by rw [hiff]; exact hcond)]

theorem gfsp_candidates_lookup (fm : FeatureMap) (caps : List String) (p : JID) :
    cands_lookup (gfsp_candidates fm caps) p =
      if semProvides fm caps p then some (semSubset fm caps p) else none := by
  rw [gfsp_candidates, cands_lookup_gfsp_fold]
  simp [cands_lookup]

theorem cands_lookup_mem (cands : List (JID × Finset String)) (p : JID) (s : Finset String)
    (h : cands_lookup cands p = some s) : (p, s) ∈ cands := by
  induction cands with
  | nil => cases h
  | cons r cands ih =>
    rcases r with ⟨a, b⟩
    by_cases hap : a = p
    · subst hap
      rw [cands_lookup, if_pos rfl] at h
      cases h
      exact List.mem_cons_self _ _
    · rw [cands_lookup, if_neg hap] at h
      exact List.mem_cons_of_mem _ (ih h)

theorem mem_cands_lookup (cands : List (JID × Finset String))
    (hnd : (cands.map Prod.fst).Nodup) (x : JID × Finset String) (hx : x ∈ cands) :
    cands_lookup cands x.1 = some x.2 := by
  induction cands with
  | nil => cases hx
  | cons r cands ih =>
    rw [List.map_cons, List.nodup_cons] at hnd
    rcases List.mem_cons.mp hx with rfl | hx
    · rw [cands_lookup, if_pos rfl]
    · have hr1 : r.1 ≠ x.1 := by
        intro h
        exact hnd.1 (h ▸ List.mem_map_of_mem Prod.fst hx)
      rw [cands_lookup, if_neg hr1]
      exact ih hnd.2 hx

theorem cands_add_keys (cands : List (JID × Finset String)) (q : JID) (ns : String) :
    (cands_add cands q ns).map Prod.fst =
      if q ∈ cands.map Prod.fst then cands.map Prod.fst
      else cands.map Prod.fst ++ [q] := by
  induction cands with
  | nil => simp [cands_add]
  | cons r cands ih =>
    by_cases hrq : r.1 = q
    · simp [cands_add, hrq]
    · simp only [cands_add, if_neg hrq, List.map_cons, ih]
      have : ¬ q = r.1 := fun h => hrq h.symm
      by_cases hq : q ∈ cands.map Prod.fst <;> simp [hq, this]

theorem cands_add_keys_nodup (cands : List (JID × Finset String)) (q : JID) (ns : String)
    (h : (cands.map Prod.fst).Nodup) : ((cands_add cands q ns).map Prod.fst).Nodup := by
  rw [cands_add_keys]
  by_cases hq : q ∈ cands.map Prod.fst
  · simpa [hq] using h
  · simp only [if_neg hq]
    simp [List.nodup_append, h, hq]

theorem fold_providers_keys_nodup (provs : List JID) (ns : String) :
    ∀ cands : List (JID × Finset String), (cands.map Prod.fst).Nodup →
      ((provs.foldl (fun c q => cands_add c q ns) cands).map Prod.fst).Nodup := by
  induction provs with
  | nil => intro cands h; exact h
  | cons q provs ih =>
    intro cands h
    simp only [List.foldl_cons]
    exact ih _ (cands_add_keys_nodup cands q ns h)

theorem gfsp_candidates_keys_nodup (fm : FeatureMap) (caps : List String) :
    ((gfsp_candidates fm caps).map Prod.fst).Nodup := by
  rw [gfsp_candidates]
  suffices h : ∀ (caps : List String) (cands : List (JID × Finset String)),
      (cands.map Prod.fst).Nodup →
      ((caps.foldl
        (fun cands feature_ns =>
          (fm_get fm feature_ns).foldl
            (fun cands provider => cands_add cands provider feature_ns) cands)
        cands).map Prod.fst).Nodup by
    exact h caps [] (by simp)
  intro caps
  induction caps with
  | nil => intro cands h; exact h
  | cons ns caps ih =>
    intro cands h
    simp only [List.foldl_cons]
    exact ih _ (fold_providers_keys_nodup _ ns cands h)

theorem mem_of_getLast? {α : Type} : ∀ (l : List α) (a : α), l.getLast? = some a → a ∈ l := by
  intro l
  induction l with
  | nil => intro a h; cases h
  | cons b l ih =>
    intro a h
    cases l with
    | nil =>
      have h2 : some b = some a := h
      cases h2
      exact List.mem_cons_self _ _
    | cons c l2 =>
      rw [List.getLast?_cons_cons] at h
      exact List.mem_cons_of_mem _ (ih a h)

theorem eq_nil_of_getLast?_none {α : Type} : ∀ l : List α, l.getLast? = none → l = [] := by
  intro l
  induction l with
  | nil => intro _; rfl
  | cons b l ih =>
    intro h
    cases l with
    | nil => cases h
    | cons c l2 =>
      rw [List.getLast?_cons_cons] at h
      cases ih h

theorem sorted_getLast_ge {α : Type} (r : α → α → Prop) :
    ∀ (l : List α) (m : α), List.Pairwise r l → l.getLast? = some m →
      ∀ x ∈ l, x = m ∨ r x m := by
  intro l
  induction l with
  | nil => intro m _ h; cases h
  | cons a l ih =>
    intro m hp hl x hx
    cases l with
    | nil =>
      have h2 : some a = some m := hl
      cases h2
      rcases List.mem_singleton.mp hx with rfl
      exact Or.inl rfl
    | cons b l2 =>
      rw [List.getLast?_cons_cons] at hl
      rcases List.mem_cons.mp hx with rfl | hx
      · exact Or.inr ((List.pairwise_cons.mp hp).1 m (mem_of_getLast? _ m hl))
      · exact ih m (List.pairwise_cons.mp hp).2 hl x hx

/-- C6: a successful `get_feature_subset_provider` result names an entity
that provides at least one requested feature, paired with exactly the subset
of the requested features it provides; that subset contains the required
subset, and among all such surviving entities its size is maximal.  A `none`
result means no entity providing any requested feature has a provided subset
containing the required one. -/
theorem C6_best_subset (st : ProvState) (caps : List String) (required : Finset String) :
    (∀ pr s, get_feature_subset_provider st caps required = some (pr, s) →
      semProvides st.featuremap caps pr ∧ s = semSubset st.featuremap caps pr ∧
      required ⊆ s ∧
      ∀ q, semProvides st.featuremap caps q → required ⊆ semSubset st.featuremap caps q →
        (semSubset st.featuremap caps q).card ≤ s.card) ∧
    (get_feature_subset_provider st caps required = none →
      ∀ q, semProvides st.featuremap caps q →
        ¬ required ⊆ semSubset st.featuremap caps q) := by
  have hsurv : ∀ q, semProvides st.featuremap caps q →
      required ⊆ semSubset st.featuremap caps q →
      (q, semSubset st.featuremap caps q) ∈
        (gfsp_candidates st.featuremap caps).filter
          (fun p => decide (p.2 ∩ required = required)) := by
    intro q hq hreq
    apply List.mem_filter.mpr
    refine ⟨?_, ?_⟩
    · apply cands_lookup_mem
      rw [gfsp_candidates_lookup, if_pos hq]
    · simp only [decide_eq_true_eq]
      exact Finset.inter_eq_right.mpr hreq
  constructor
  · intro pr s h
    rw [get_feature_subset_provider] at h
    have hmem : (pr, s) ∈ List.insertionSort cardLe
        ((gfsp_candidates st.featuremap caps).filter
          (fun p => decide (p.2 ∩ required = required))) :=
      mem_of_getLast? _ _ h
    have hmem2 := (List.perm_insertionSort cardLe _).mem_iff.mp hmem
    have hfilter := List.mem_filter.mp hmem2
    have hlook := mem_cands_lookup _ (gfsp_candidates_keys_nodup st.featuremap caps)
      (pr, s) hfilter.1
    rw [gfsp_candidates_lookup] at hlook
    by_cases hq : semProvides st.featuremap caps pr
    · rw [if_pos hq] at hlook
      have hss : s = semSubset st.featuremap caps pr := (Option.some_inj.mp hlook).symm
      have hreq : required ⊆ s := by
        have hdec := hfilter.2
        simp only [decide_eq_true_eq] at hdec
        exact Finset.inter_eq_right.mp hdec
      refine ⟨hq, hss, hreq, ?_⟩
      intro q hqprov hqreq
      have hqmem := hsurv q hqprov hqreq
      have hqsorted := (List.perm_insertionSort cardLe _).mem_iff.mpr hqmem
      have hsorted := List.sorted_insertionSort cardLe
        ((gfsp_candidates st.featuremap caps).filter
          (fun p => decide (p.2 ∩ required = required)))
      rcases sorted_getLast_ge cardLe _ (pr, s) hsorted h _ hqsorted with heq | hle
      · rw [show semSubset st.featuremap caps q = s from congrArg Prod.snd heq]
      · exact hle
    · rw [if_neg hq] at hlook
      cases hlook
  · intro h q hqprov hqreq
    rw [get_feature_subset_provider] at h
    have hnil := eq_nil_of_getLast?_none _ h
    have hqmem := hsurv q hqprov hqreq
    have hqsorted := (List.perm_insertionSort cardLe _).mem_iff.mpr hqmem
    rw [hnil] at hqsorted
    cases hqsorted

theorem C6_witness :
    get_feature_subset_provider st_C6 ["a", "b", "c"] {"a"} = some ("P2", {"a", "b"}) ∧
    ({"a"} : Finset String) ⊆ {"a", "b"} ∧
    semProvides st_C6.featuremap ["a", "b", "c"] "P2" := by
  have heval : get_feature_subset_provider st_C6 ["a", "b", "c"] {"a"} =
      some ("P2", {"b", "a"}) := rfl
  have hset : ({"b", "a"} : Finset String) = {"a", "b"} := by
    ext x
    simp
    tauto
  have h := (C6_best_subset st_C6 ["a", "b", "c"] {"a"}).1 "P2" {"b", "a"} heval
  refine ⟨by rw [heval, hset], ?_, h.1⟩
  rw [← hset]
  exact h.2.2.1

/-! ## Claim C9 -/

theorem runN_clients (mkClient : Nat → Client) (hs : Handle → Except String Unit)
    (hok : ∀ h, hs h = Except.ok ()) :
    ∀ (n : Nat) (st : ProvState),
      (runN mkClient hs n st).2 =
        (List.range n).map (fun i => mkClient (st.counter + i)) := by
  intro n
  induction n with
  | zero => intro st; simp [runN]
  | succ n ih =>
    intro st
    rw [runN, gcc_ok_eq mkClient hs st (hok _)]
    simp only []
    rw [ih]
    simp only []
    rw [List.range_succ_eq_map, List.map_cons, List.map_map]
    have hfun : ((fun i => mkClient (st.counter + i)) ∘ Nat.succ) =
        fun i => mkClient (st.counter + 1 + i) := by
      funext i
      simp only [Function.comp_apply]
      exact congrArg mkClient (by omega)
    rw [hfun]
    simp

/-- C9: with the spec-modelled fresh-account collaborator (see
`FreshAccountSource`), the clients returned by any number of sequential
successful `get_connected_client` calls carry pairwise distinct bare JIDs. -/
theorem C9_unique_accounts (mkClient : Nat → Client) (hs : Handle → Except String Unit)
    (st : ProvState) (n : Nat) (hfresh : FreshAccountSource mkClient)
    (hok : ∀ h, hs h = Except.ok ()) :
    ((runN mkClient hs n st).2.map Client.jid).Pairwise (fun a b => a ≠ b) := by
  rw [runN_clients mkClient hs hok n st, List.map_map]
  have hnd : (List.range n).Pairwise (fun a b => a ≠ b) := List.nodup_range n
  refine hnd.map _ ?_
  intro a b hab hjid
  exact hab (by
    have := hfresh (st.counter + a) (st.counter + b) hjid
    omega)

theorem C9_witness :
    ((runN mk_C9 hs_ok 3 Provisioner_init).2.map Client.jid).Pairwise
      (fun a b => a ≠ b) :=
  C9_unique_accounts mk_C9 hs_ok Provisioner_init 3
    (fun i j h => by
      simp only [mk_C9] at h
      have hlen := congrArg String.length h
      simpa using hlen)
    (fun _ => rfl)

/-! ## Claim C2 -/

theorem step_connect_true_eq (mkClient : Nat → Client) (ts : TraceState) :
    stepOp mkClient (Op.connect true) ts =
      { st := { ts.st with
          counter := ts.st.counter + 1,
          accounts_to_dispose := ts.st.accounts_to_dispose ++
            [{ client := mkClient ts.st.counter, uid := ts.st.counter }] },
        created := ts.created ++ [{ client := mkClient ts.st.counter, uid := ts.st.counter }],
        attempts := ts.attempts } := by
  rw [stepOp, gcc_ok_eq mkClient _ ts.st rfl]

theorem step_connect_false_eq (mkClient : Nat → Client) (ts : TraceState) :
    stepOp mkClient (Op.connect false) ts =
      { st := { ts.st with counter := ts.st.counter + 1 },
        created := ts.created ++ [{ client := mkClient ts.st.counter, uid := ts.st.counter }],
        attempts := ts.attempts } := by
  rw [stepOp, gcc_err_eq mkClient _ ts.st "ConnectionError" rfl]

theorem step_teardown_eq (mkClient : Nat → Client) (ts : TraceState) :
    stepOp mkClient Op.teardown ts =
      { st := { ts.st with accounts_to_dispose := [] },
        created := ts.created,
        attempts := ts.attempts ++ ts.st.accounts_to_dispose } := by
  rw [stepOp]
  simp [teardown, List.map_map, Function.comp_def]

theorem runOps_cons (mkClient : Nat → Client) (op : Op) (ops : List Op) (ts : TraceState) :
    runOps mkClient (op :: ops) ts = runOps mkClient ops (stepOp mkClient op ts) := rfl

theorem runOps_append (mkClient : Nat → Client) (l1 l2 : List Op) (ts : TraceState) :
    runOps mkClient (l1 ++ l2) ts = runOps mkClient l2 (runOps mkClient l1 ts) := by
  simp [runOps, List.foldl_append]

theorem step_bound (mkClient : Nat → Client) (op : Op) (ts : TraceState)
    (h : HandleBound ts) : HandleBound (stepOp mkClient op ts) := by
  rcases h with ⟨h1, h2⟩
  cases op with
  | connect ok =>
    cases ok with
    | true =>
      rw [step_connect_true_eq]
      refine ⟨?_, ?_⟩
      · intro x hx
        simp only [List.mem_append, List.mem_singleton] at hx
        rcases hx with hx | hx
        · exact Nat.lt_succ_of_lt (h1 x hx)
        · rw [hx]
          exact Nat.lt_succ_self _
      · intro x hx
        exact Nat.lt_succ_of_lt (h2 x hx)
    | false =>
      rw [step_connect_false_eq]
      refine ⟨?_, ?_⟩
      · intro x hx
        exact Nat.lt_succ_of_lt (h1 x hx)
      · intro x hx
        exact Nat.lt_succ_of_lt (h2 x hx)
  | teardown =>
    rw [step_teardown_eq]
    refine ⟨?_, ?_⟩
    · intro x hx
      cases hx
    · intro x hx
      rcases List.mem_append.mp hx with hx | hx
      · exact h2 x hx
      · exact h1 x hx

theorem run_bound (mkClient : Nat → Client) :
    ∀ (ops : List Op) (ts : TraceState), HandleBound ts →
      HandleBound (runOps mkClient ops ts) := by
  intro ops
  induction ops with
  | nil => intro ts h; exact h
  | cons op ops ih =>
    intro ts h
    rw [runOps_cons]
    exact ih _ (step_bound mkClient op ts h)

theorem count_new_zero (mkClient : Nat → Client) (h : Handle) (n : Nat)
    (hlt : h.uid < n) :
    ([{ client := mkClient n, uid := n }] : List Handle).count h = 0 :=
  List.count_eq_zero.mpr (by
    intro hmem
    rw [List.mem_singleton] at hmem
    rw [hmem] at hlt
    exact Nat.lt_irrefl n hlt)

theorem run_sum_counts (mkClient : Nat → Client) (h : Handle) :
    ∀ (ops : List Op) (ts : TraceState), h.uid < ts.st.counter →
      h.uid < (runOps mkClient ops ts).st.counter ∧
      (runOps mkClient ops ts).st.accounts_to_dispose.count h +
        (runOps mkClient ops ts).attempts.count h =
      ts.st.accounts_to_dispose.count h + ts.attempts.count h := by
  intro ops
  induction ops with
  | nil => intro ts hlt; exact ⟨hlt, rfl⟩
  | cons op ops ih =>
    intro ts hlt
    rw [runOps_cons]
    cases op with
    | connect ok =>
      cases ok with
      | true =>
        have hstep := ih (stepOp mkClient (Op.connect true) ts)
          (by rw [step_connect_true_eq]; exact Nat.lt_succ_of_lt hlt)
        refine ⟨hstep.1, ?_⟩
        rw [hstep.2, step_connect_true_eq]
        simp only [List.count_append, count_new_zero mkClient h ts.st.counter hlt]
        omega
      | false =>
        have hstep := ih (stepOp mkClient (Op.connect false) ts)
          (by rw [step_connect_false_eq]; exact Nat.lt_succ_of_lt hlt)
        refine ⟨hstep.1, ?_⟩
        rw [hstep.2, step_connect_false_eq]
    | teardown =>
      have hstep := ih (stepOp mkClient Op.teardown ts)
        (by rw [step_teardown_eq]; exact hlt)
      refine ⟨hstep.1, ?_⟩
      rw [hstep.2, step_teardown_eq]
      simp only [List.count_nil, List.count_append]
      omega

theorem run_preserve_zero (mkClient : Nat → Client) (h : Handle) :
    ∀ (ops : List Op) (ts : TraceState), h.uid < ts.st.counter →
      ts.st.accounts_to_dispose.count h = 0 →
      (runOps mkClient ops ts).st.accounts_to_dispose.count h = 0 ∧
      (runOps mkClient ops ts).attempts.count h = ts.attempts.count h := by
  intro ops
  induction ops with
  | nil => intro ts _ hacc; exact ⟨hacc, rfl⟩
  | cons op ops ih =>
    intro ts hlt hacc
    rw [runOps_cons]
    cases op with
    | connect ok =>
      cases ok with
      | true =>
        have hstep := ih (stepOp mkClient (Op.connect true) ts)
          (by rw [step_connect_true_eq]; exact Nat.lt_succ_of_lt hlt)
          (by
            rw [step_connect_true_eq]
            simp only [List.count_append, count_new_zero mkClient h ts.st.counter hlt, hacc])
        refine ⟨hstep.1, ?_⟩
        rw [hstep.2, step_connect_true_eq]
      | false =>
        have hstep := ih (stepOp mkClient (Op.connect false) ts)
          (by rw [step_connect_false_eq]; exact Nat.lt_succ_of_lt hlt)
          (by rw [step_connect_false_eq]; exact hacc)
        refine ⟨hstep.1, ?_⟩
        rw [hstep.2, step_connect_false_eq]
    | teardown =>
      have hstep := ih (stepOp mkClient Op.teardown ts)
        (by rw [step_teardown_eq]; exact hlt)
        (by rw [step_teardown_eq]; exact List.count_nil h)
      refine ⟨hstep.1, ?_⟩
      rw [hstep.2, step_teardown_eq]
      simp [List.count_append, hacc]

theorem run_flush (mkClient : Nat → Client) (h : Handle) :
    ∀ (ops : List Op) (ts : TraceState), Op.teardown ∈ ops →
      h.uid < ts.st.counter →
      ts.st.accounts_to_dispose.count h = 1 → ts.attempts.count h = 0 →
      (runOps mkClient ops ts).attempts.count h = 1 := by
  intro ops
  induction ops with
  | nil => intro ts hmem; cases hmem
  | cons op ops ih =>
    intro ts hmem hlt hacc hatt
    rw [runOps_cons]
    cases op with
    | teardown =>
      have hpre := run_preserve_zero mkClient h ops (stepOp mkClient Op.teardown ts)
        (by rw [step_teardown_eq]; exact hlt)
        (by rw [step_teardown_eq]; exact List.count_nil h)
      rcases hpre with ⟨_, hp2⟩
      rw [hp2, step_teardown_eq]
      simp [List.count_append, hacc, hatt]
    | connect ok =>
      have hmem2 : Op.teardown ∈ ops := by
        rcases List.mem_cons.mp hmem with heq | hmem2
        · cases heq
        · exact hmem2
      cases ok with
      | true =>
        apply ih (stepOp mkClient (Op.connect true) ts) hmem2
        · rw [step_connect_true_eq]; exact Nat.lt_succ_of_lt hlt
        · rw [step_connect_true_eq]
          simp only [List.count_append, count_new_zero mkClient h ts.st.counter hlt, hacc]
        · rw [step_connect_true_eq]; exact hatt
      | false =>
        apply ih (stepOp mkClient (Op.connect false) ts) hmem2
        · rw [step_connect_false_eq]; exact Nat.lt_succ_of_lt hlt
        · rw [step_connect_false_eq]; exact hacc
        · rw [step_connect_false_eq]; exact hatt

/-- C2 (corrected): for a handle created by a `get_connected_client` call
whose handshake succeeded, disposal is attempted exactly once by the
teardown(s) that follow; but for a handle whose handshake failed, the handle
is never put up for disposal and no disposal is ever attempted for it —
disposal is not attempted for handles that were never fully connected. -/
theorem C2_amended_disposal (mkClient : Nat → Client) (pre post : List Op) :
    (Op.teardown ∈ post →
      (runOps mkClient (pre ++ Op.connect true :: post) initTrace).attempts.count
        (handleAt mkClient pre) = 1) ∧
    (runOps mkClient (pre ++ Op.connect false :: post) initTrace).attempts.count
        (handleAt mkClient pre) = 0 := by
  have hbound : HandleBound (runOps mkClient pre initTrace) :=
    run_bound mkClient pre initTrace
      ⟨fun x hx => absurd hx (List.not_mem_nil x), fun x hx => absurd hx (List.not_mem_nil x)⟩
  rcases hbound with ⟨hb1, hb2⟩
  have huid : (handleAt mkClient pre).uid = (runOps mkClient pre initTrace).st.counter := rfl
  have hacc0 : (runOps mkClient pre initTrace).st.accounts_to_dispose.count
      (handleAt mkClient pre) = 0 :=
    List.count_eq_zero.mpr (fun hmem =>
      Nat.lt_irrefl _ (huid ▸ hb1 (handleAt mkClient pre) hmem))
  have hatt0 : (runOps mkClient pre initTrace).attempts.count (handleAt mkClient pre) = 0 :=
    List.count_eq_zero.mpr (fun hmem =>
      Nat.lt_irrefl _ (huid ▸ hb2 (handleAt mkClient pre) hmem))
  constructor
  · intro htd
    rw [runOps_append, runOps_cons]
    apply run_flush mkClient (handleAt mkClient pre) post _ htd
    · rw [step_connect_true_eq, huid]
      exact Nat.lt_succ_self _
    · rw [step_connect_true_eq]
      simp only [List.count_append, hacc0]
      rw [show (handleAt mkClient pre) =
        { client := mkClient (runOps mkClient pre initTrace).st.counter,
          uid := (runOps mkClient pre initTrace).st.counter } from rfl]
      simp [List.count_singleton]
    · rw [step_connect_true_eq]
      exact hatt0
  · rw [runOps_append, runOps_cons]
    have hpre := run_preserve_zero mkClient (handleAt mkClient pre) post
      (stepOp mkClient (Op.connect false) (runOps mkClient pre initTrace))
      (by rw [step_connect_false_eq, huid]; exact Nat.lt_succ_self _)
      (by rw [step_connect_false_eq]; exact hacc0)
    rcases hpre with ⟨_, hp2⟩
    rw [hp2, step_connect_false_eq]
    exact hatt0

/-- C2 counterexample: in the trace "one `get_connected_client` whose
handshake fails, then `teardown`", the context manager created by the failed
call appears in the created history but no disposal is ever attempted for it,
contradicting the claim that disposal is attempted even for handles that were
never fully connected. -/
theorem C2_counterexample :
    (runOps mk_anon [Op.connect false, Op.teardown] initTrace).created =
      [{ client := mk_anon 0, uid := 0 }] ∧
    (runOps mk_anon [Op.connect false, Op.teardown] initTrace).attempts.count
      { client := mk_anon 0, uid := 0 } = 0 :=
  ⟨rfl, rfl⟩

theorem C2_witness :
    (runOps mk_anon ([] ++ Op.connect true :: [Op.teardown]) initTrace).attempts.count
      (handleAt mk_anon []) = 1 ∧
    (runOps mk_anon ([] ++ Op.connect false :: [Op.teardown]) initTrace).attempts.count
      (handleAt mk_anon []) = 0 :=
  ⟨(C2_amended_disposal mk_anon [] [Op.teardown]).1 (List.mem_cons_self _ _),
   (C2_amended_disposal mk_anon [] [Op.teardown]).2⟩

end Provision
